import Mathlib

/-!
Shallow embedding of the clamped Gibbs / simulated-annealing sampler from
`12_Training Probabilistic Graphical Models.ipynb` (cell 5).

Modelling conventions:
* Python dicts keyed by nodes become a key list (`nodes`, in insertion
  order) together with a total function carrying the values; the coupling
  dict `J` becomes an association list keyed by ordered pairs, looked up
  with `List.lookup`.
* Real numbers (biases, couplings, β) become `ℚ`; spins stay `Int`.
* The random source is split into the two streams the cell consumes:
  `draws : Nat → Int` for `np.random.choice((-1, 1))` at initialization and
  `logUs : Nat → ℚ` standing for `np.log(np.random.uniform(0, 1))` in the
  acceptance test (so a draw `U ∈ (0,1)` appears as its logarithm, a
  negative rational).
* `greedy_coloring` is an external dimod collaborator; the coloring is a
  parameter `coloring : (Node → Finset Node) → List (List Node)` and
  theorems that need the proper-coloring / partition invariant take it as
  a hypothesis.
* The only runtime failure in the cell is the `KeyError` raised by
  `adj[n0].add(n1)` when a coupling endpoint is not a key of `h`; this is
  modelled with `Option`.
-/

abbrev Node := Nat

/-- `spins[v] *= -1` : pointwise flip of the spin of one node. -/
def flipAt (s : Node → Int) (v : Node) : Node → Int :=
  fun w => if w = v then s v * -1 else s w

/-- The Metropolis acceptance test of the cell:
`logp < -1. * β * (energy_diff_h[v] + energy_diff_J[v])`,
with `ed` the precomputed energy difference and `logp` the logarithm of the
uniform draw. -/
def metropolisAccept (beta ed logp : ℚ) : Bool :=
  decide (logp < -1 * beta * ed)

/-- One summand of the `ediff` accumulation: for a neighbour `v1` of `v0`,
`if (v0, v1) in J: ediff += spins[v0] * spins[v1] * J[(v0, v1)]` and
`if (v1, v0) in J: ediff += spins[v0] * spins[v1] * J[(v1, v0)]`. -/
def couplingTerm (J : List ((Node × Node) × ℚ)) (s : Node → Int) (v0 v1 : Node) : ℚ :=
  (match J.lookup (v0, v1) with
   | some w => (s v0 : ℚ) * (s v1 : ℚ) * w
   | none => 0) +
  (match J.lookup (v1, v0) with
   | some w => (s v0 : ℚ) * (s v1 : ℚ) * w
   | none => 0)

/-- `energy_diff_J[v0] = -2. * ediff`, where `ediff` sums `couplingTerm`
over the neighbour set `adj[v0]`. -/
def energy_diff_J (J : List ((Node × Node) × ℚ)) (adj : Node → Finset Node)
    (s : Node → Int) (v0 : Node) : ℚ :=
  -2 * (adj v0).sum (fun v1 => couplingTerm J s v0 v1)

/-- The sweep-start dict `energy_diff_h = {v: -2 * spins[v] * h[v] for v in h}`,
as a function of the spin state it was computed from. -/
def energy_diff_h (hbias : Node → ℚ) (s : Node → Int) (v : Node) : ℚ :=
  -2 * (s v : ℚ) * hbias v

/-- The acceptance loop of one color class:
`for v in filter(lambda x: x not in clamped_spins, nodes): logp = ...; if logp < -1.*β*(edh[v]+edJ[v]): spins[v] *= -1`.
`edh` and `edJ` are the precomputed dicts; `k` indexes the next uniform
draw of the `logUs` stream (one draw is consumed per non-clamped node). -/
def acceptLoop (clamped : List (Node × Int)) (edh edJ : Node → ℚ) (beta : ℚ)
    (logUs : Nat → ℚ) : List Node → (Node → Int) → Nat → (Node → Int) × Nat
  | [], s, k => (s, k)
  | v :: l, s, k =>
    if (clamped.lookup v).isSome then
      acceptLoop clamped edh edJ beta logUs l s k
    else if metropolisAccept beta (edh v + edJ v) (logUs k) then
      acceptLoop clamped edh edJ beta logUs l (flipAt s v) (k + 1)
    else
      acceptLoop clamped edh edJ beta logUs l s (k + 1)

/-- Update of one color class: `energy_diff_J` is computed for the class
nodes from the spins as they stand at the start of the class, then the
acceptance loop runs over the class list. -/
def classUpdate (J : List ((Node × Node) × ℚ)) (adj : Node → Finset Node)
    (clamped : List (Node × Int)) (edh : Node → ℚ) (beta : ℚ) (cls : List Node)
    (s : Node → Int) (logUs : Nat → ℚ) (k : Nat) : (Node → Int) × Nat :=
  acceptLoop clamped edh (fun v => energy_diff_J J adj s v) beta logUs cls s k

/-- `for color in colors:` — fold the class update over the listed color
classes, threading spins and the draw counter. -/
def classesFold (J : List ((Node × Node) × ℚ)) (adj : Node → Finset Node)
    (clamped : List (Node × Int)) (edh : Node → ℚ) (beta : ℚ) (logUs : Nat → ℚ)
    (colors : List (List Node)) (s : Node → Int) (k : Nat) : (Node → Int) × Nat :=
  colors.foldl (fun p cls => classUpdate J adj clamped edh beta cls p.1 logUs p.2) (s, k)

/-- One sweep at inverse temperature `beta`: `energy_diff_h` is computed once
from the sweep-start spins, then every color class is updated in order. -/
def sweep (hbias : Node → ℚ) (J : List ((Node × Node) × ℚ)) (adj : Node → Finset Node)
    (clamped : List (Node × Int)) (colors : List (List Node)) (beta : ℚ)
    (s : Node → Int) (logUs : Nat → ℚ) (k : Nat) : (Node → Int) × Nat :=
  classesFold J adj clamped (energy_diff_h hbias s) beta logUs colors s k

/-- `for β in βs:` — one sweep per cooling-schedule entry, in order. -/
def anneal (hbias : Node → ℚ) (J : List ((Node × Node) × ℚ)) (adj : Node → Finset Node)
    (clamped : List (Node × Int)) (colors : List (List Node)) (betas : List ℚ)
    (p : (Node → Int) × Nat) (logUs : Nat → ℚ) : (Node → Int) × Nat :=
  betas.foldl (fun q beta => sweep hbias J adj clamped colors beta q.1 logUs q.2) p

/-- `spins = {v: np.random.choice((-1, 1)) if v not in clamped_spins else clamped_spins[v] for v in h}` :
initialize in key order, consuming one `draws` entry per non-clamped node. -/
def initSpins (clamped : List (Node × Int)) (draws : Nat → Int) :
    List Node → (Node → Int) → Nat → (Node → Int) × Nat
  | [], s, i => (s, i)
  | v :: l, s, i =>
    match clamped.lookup v with
    | some c => initSpins clamped draws l (fun w => if w = v then c else s w) i
    | none => initSpins clamped draws l (fun w => if w = v then draws i else s w) (i + 1)

/-- `adj[a].add(b)` on the adjacency dict. -/
def adjInsert (adj : Node → Finset Node) (a b : Node) : Node → Finset Node :=
  fun n => if n = a then insert b (adj n) else adj n

/-- `adj = {n: set() for n in h}; for n0, n1 in J: adj[n0].add(n1); adj[n1].add(n0)`.
`adj[n0]` raises `KeyError` (here: `none`) when `n0` is not a key of `h`. -/
def buildAdj (nodes : List Node) :
    List ((Node × Node) × ℚ) → (Node → Finset Node) → Option (Node → Finset Node)
  | [], adj => some adj
  | ((n0, n1), _) :: rest, adj =>
    if n0 ∈ nodes ∧ n1 ∈ nodes then
      buildAdj nodes rest (adjInsert (adjInsert adj n0 n1) n1 n0)
    else
      none

/-- The inputs of one sampling run: the bias dict `h` (key list plus value
function), the coupling dict `J`, the clamp dict and the cooling schedule. -/
structure SampleInput where
  nodes : List Node
  hbias : Node → ℚ
  J : List ((Node × Node) × ℚ)
  clamped : List (Node × Int)
  betas : List ℚ

/-- The whole cell: build the adjacency dict (the only failing step), color
it with the external collaborator, initialize the spins, run one sweep per
schedule entry and read the final spin dict back off the node list. -/
def sample (inp : SampleInput) (coloring : (Node → Finset Node) → List (List Node))
    (draws : Nat → Int) (logUs : Nat → ℚ) : Option (List (Node × Int)) :=
  match buildAdj inp.nodes inp.J (fun _ => ∅) with
  | none => none
  | some adj =>
    let colors := coloring adj
    let s0 := (initSpins inp.clamped draws inp.nodes (fun _ => 0) 0).1
    let final := (anneal inp.hbias inp.J adj inp.clamped colors inp.betas (s0, 0) logUs).1
    some (inp.nodes.map (fun v => (v, final v)))

/-- The concrete cooling schedule of the notebook:
`num_sweeps = 1000; βs = [1.0 - 1.0*i / (num_sweeps - 1.) for i in range(num_sweeps)]`. -/
def num_sweeps : Nat := 1000

def notebookBetas : List ℚ :=
  (List.range num_sweeps).map (fun i : Nat => 1 - 1 * (i : ℚ) / ((num_sweeps : ℚ) - 1))

/-- Position of the uniform draw consumed for node `v` inside one class
list: the number of non-clamped nodes that the filtered loop visits before
reaching `v`. -/
def freeIdx (clamped : List (Node × Int)) (cls : List Node) (v : Node) : Nat :=
  ((cls.takeWhile (fun x => !(x == v))).filter (fun x => (clamped.lookup x).isNone)).length

/-- The flip loop of one color class with node-indexed acceptance draws and
a precomputed energy-difference dict `ed`: the shape of the cell with the
draw stream replaced by a per-node draw, as the simultaneous-update reading
of the sweep stipulates (each node consumes its own fixed draw). -/
def batchFlips (clamped : List (Node × Int)) (beta : ℚ) (draw : Node → ℚ) (ed : Node → ℚ) :
    List Node → (Node → Int) → (Node → Int)
  | [], s => s
  | v :: l, s =>
    if (clamped.lookup v).isSome then batchFlips clamped beta draw ed l s
    else if metropolisAccept beta (ed v) (draw v) then batchFlips clamped beta draw ed l (flipAt s v)
    else batchFlips clamped beta draw ed l s

/-- Batched color-class update: every energy difference is evaluated from
the spins as they stand at the start of the class, then the accepted flips
are applied. -/
def batchUpdate (hbias : Node → ℚ) (J : List ((Node × Node) × ℚ)) (adj : Node → Finset Node)
    (clamped : List (Node × Int)) (beta : ℚ) (draw : Node → ℚ) (cls : List Node)
    (s : Node → Int) : Node → Int :=
  batchFlips clamped beta draw
    (fun v => energy_diff_h hbias s v + energy_diff_J J adj s v) cls s

/-- Strictly sequential single-node Gibbs updates over a list of nodes:
each energy difference is evaluated from the spins as they stand when that
node is reached, each node consuming its own draw. -/
def seqUpdate (hbias : Node → ℚ) (J : List ((Node × Node) × ℚ)) (adj : Node → Finset Node)
    (clamped : List (Node × Int)) (beta : ℚ) (draw : Node → ℚ) :
    List Node → (Node → Int) → (Node → Int)
  | [], s => s
  | v :: l, s =>
    if (clamped.lookup v).isSome then seqUpdate hbias J adj clamped beta draw l s
    else if metropolisAccept beta
        (energy_diff_h hbias s v + energy_diff_J J adj s v) (draw v) then
      seqUpdate hbias J adj clamped beta draw l (flipAt s v)
    else seqUpdate hbias J adj clamped beta draw l s

/-! ## Basic lemmas about the update loops -/

lemma flipAt_ne (s : Node → Int) (v w : Node) (h : w ≠ v) : flipAt s v w = s w := by
  simp [flipAt, h]

lemma flipAt_self (s : Node → Int) (v : Node) : flipAt s v v = s v * -1 := by
  simp [flipAt]

lemma acceptLoop_not_mem (clamped : List (Node × Int)) (edh edJ : Node → ℚ) (beta : ℚ)
    (logUs : Nat → ℚ) (v : Node) :
    ∀ (l : List Node) (s : Node → Int) (k : Nat), v ∉ l →
      (acceptLoop clamped edh edJ beta logUs l s k).1 v = s v := by
  intro l
  induction l with
  | nil => intro s k _; rfl
  | cons u l ih =>
    intro s k h
    have hvu : v ≠ u := fun e => h (e ▸ List.mem_cons_self u l)
    have hvl : v ∉ l := fun e => h (List.mem_cons_of_mem u e)
    simp only [acceptLoop]
    split
    · exact ih s k hvl
    · split
      · rw [ih (flipAt s u) (k + 1) hvl, flipAt_ne s u v hvu]
      · exact ih s (k + 1) hvl

lemma acceptLoop_clamped_fix (clamped : List (Node × Int)) (edh edJ : Node → ℚ) (beta : ℚ)
    (logUs : Nat → ℚ) (v : Node) (hv : (clamped.lookup v).isSome) :
    ∀ (l : List Node) (s : Node → Int) (k : Nat),
      (acceptLoop clamped edh edJ beta logUs l s k).1 v = s v := by
  intro l
  induction l with
  | nil => intro s k; rfl
  | cons u l ih =>
    intro s k
    simp only [acceptLoop]
    split
    · exact ih s k
    · rename_i hu
      have hvu : v ≠ u := by
        intro e; rw [e] at hv; simp [hv] at hu
      split
      · rw [ih (flipAt s u) (k + 1), flipAt_ne s u v hvu]
      · exact ih s (k + 1)

lemma freeIdx_cons_self (clamped : List (Node × Int)) (u : Node) (l : List Node) :
    freeIdx clamped (u :: l) u = 0 := by
  simp [freeIdx, List.takeWhile]

lemma freeIdx_cons_ne_clamped (clamped : List (Node × Int)) (u w : Node) (l : List Node)
    (h : u ≠ w) (hc : (clamped.lookup u).isSome) :
    freeIdx clamped (u :: l) w = freeIdx clamped l w := by
  have hb : (u == w) = false := beq_eq_false_iff_ne.mpr h
  have hn : (clamped.lookup u).isNone = false := by
    rcases Option.isSome_iff_exists.mp hc with ⟨c, hcc⟩
    simp [hcc]
  simp [freeIdx, List.takeWhile, hb, List.filter, hn]

lemma freeIdx_cons_ne_free (clamped : List (Node × Int)) (u w : Node) (l : List Node)
    (h : u ≠ w) (hc : (clamped.lookup u).isSome = false) :
    freeIdx clamped (u :: l) w = freeIdx clamped l w + 1 := by
  have hb : (u == w) = false := beq_eq_false_iff_ne.mpr h
  have hn : (clamped.lookup u).isNone = true := by
    simp [Option.isNone_iff_eq_none, ← Option.not_isSome_iff_eq_none, hc]
  simp [freeIdx, List.takeWhile, hb, List.filter, hn, Nat.add_comm]

/-- Pointwise description of the acceptance loop over a duplicate-free
class list: node `w` is flipped exactly when it is a non-clamped member of
the class and its Metropolis test at its own draw succeeds; every other
node keeps its spin. -/
lemma acceptLoop_pointwise (clamped : List (Node × Int)) (edh edJ : Node → ℚ) (beta : ℚ)
    (logUs : Nat → ℚ) :
    ∀ (l : List Node), l.Nodup → ∀ (s : Node → Int) (k : Nat) (w : Node),
      (acceptLoop clamped edh edJ beta logUs l s k).1 w =
        if w ∈ l ∧ clamped.lookup w = none ∧
            metropolisAccept beta (edh w + edJ w) (logUs (k + freeIdx clamped l w)) = true
        then s w * -1 else s w := by
  intro l
  induction l with
  | nil => intro _ s k w; simp [acceptLoop]
  | cons u l ih =>
    intro hnd s k w
    rcases List.nodup_cons.mp hnd with ⟨hu, hl⟩
    by_cases hw : w = u
    · subst hw
      simp only [acceptLoop]
      split
      · rename_i hcs
        rw [ih hl s k w]
        have : ¬ (clamped.lookup w = none) := by simp [← Option.not_isSome_iff_eq_none, hcs]
        simp [hu, this]
      · rename_i hcs
        have hnone : clamped.lookup w = none := Option.not_isSome_iff_eq_none.mp (by simp [hcs])
        rw [freeIdx_cons_self, Nat.add_zero]
        split
        · rename_i hacc
          rw [acceptLoop_not_mem clamped edh edJ beta logUs w l (flipAt s w) (k + 1) hu,
            flipAt_self]
          simp [hnone, hacc]
        · rename_i hacc
          rw [acceptLoop_not_mem clamped edh edJ beta logUs w l s (k + 1) hu]
          simp [hnone, hacc]
    · have hmem : w ∈ u :: l ↔ w ∈ l := by
        constructor
        · intro h; rcases List.mem_cons.mp h with h | h
          · exact absurd h hw
          · exact h
        · exact fun h => List.mem_cons_of_mem u h
      simp only [acceptLoop]
      split
      · rename_i hcs
        rw [ih hl s k w, freeIdx_cons_ne_clamped clamped u w l (fun e => hw e.symm) hcs]
        simp only [hmem]
      · rename_i hcs
        have hfi : freeIdx clamped (u :: l) w = freeIdx clamped l w + 1 :=
          freeIdx_cons_ne_free clamped u w l (fun e => hw e.symm) (by simp [hcs])
        have harr : k + 1 + freeIdx clamped l w = k + freeIdx clamped (u :: l) w := by
          rw [hfi]; omega
        split
        · rw [ih hl (flipAt s u) (k + 1) w, flipAt_ne s u w hw, harr]
          simp only [hmem]
        · rw [ih hl s (k + 1) w, harr]
          simp only [hmem]

/-! ## Preservation lemmas across classes and sweeps -/

lemma acceptLoop_pres (clamped : List (Node × Int)) (edh edJ : Node → ℚ) (beta : ℚ)
    (logUs : Nat → ℚ) (P : (Node → Int) → Prop)
    (hP : ∀ s u, P s → P (flipAt s u)) :
    ∀ (l : List Node) (s : Node → Int) (k : Nat), P s →
      P (acceptLoop clamped edh edJ beta logUs l s k).1 := by
  intro l
  induction l with
  | nil => intro s k h; exact h
  | cons u l ih =>
    intro s k h
    simp only [acceptLoop]
    split
    · exact ih s k h
    · split
      · exact ih (flipAt s u) (k + 1) (hP s u h)
      · exact ih s (k + 1) h

lemma classesFold_pres (J : List ((Node × Node) × ℚ)) (adj : Node → Finset Node)
    (clamped : List (Node × Int)) (edh : Node → ℚ) (beta : ℚ) (logUs : Nat → ℚ)
    (P : (Node → Int) → Prop) (hP : ∀ s u, P s → P (flipAt s u)) :
    ∀ (colors : List (List Node)) (s : Node → Int) (k : Nat), P s →
      P (classesFold J adj clamped edh beta logUs colors s k).1 := by
  intro colors
  induction colors with
  | nil => intro s k h; exact h
  | cons cls colors ih =>
    intro s k h
    show P (classesFold J adj clamped edh beta logUs colors
      (classUpdate J adj clamped edh beta cls s logUs k).1
      (classUpdate J adj clamped edh beta cls s logUs k).2).1
    exact ih _ _ (acceptLoop_pres clamped edh _ beta logUs P hP cls s k h)

lemma anneal_pres (hbias : Node → ℚ) (J : List ((Node × Node) × ℚ)) (adj : Node → Finset Node)
    (clamped : List (Node × Int)) (colors : List (List Node)) (logUs : Nat → ℚ)
    (P : (Node → Int) → Prop) (hP : ∀ s u, P s → P (flipAt s u)) :
    ∀ (betas : List ℚ) (p : (Node → Int) × Nat), P p.1 →
      P (anneal hbias J adj clamped colors betas p logUs).1 := by
  intro betas
  induction betas with
  | nil => intro p h; exact h
  | cons beta betas ih =>
    intro p h
    show P (anneal hbias J adj clamped colors betas
      (sweep hbias J adj clamped colors beta p.1 logUs p.2) logUs).1
    exact ih _ (classesFold_pres J adj clamped _ beta logUs P hP colors p.1 p.2 h)

lemma classesFold_clamped_fix (J : List ((Node × Node) × ℚ)) (adj : Node → Finset Node)
    (clamped : List (Node × Int)) (edh : Node → ℚ) (beta : ℚ) (logUs : Nat → ℚ)
    (v : Node) (hv : (clamped.lookup v).isSome) :
    ∀ (colors : List (List Node)) (s : Node → Int) (k : Nat),
      (classesFold J adj clamped edh beta logUs colors s k).1 v = s v := by
  intro colors
  induction colors with
  | nil => intro s k; rfl
  | cons cls colors ih =>
    intro s k
    show (classesFold J adj clamped edh beta logUs colors
      (classUpdate J adj clamped edh beta cls s logUs k).1
      (classUpdate J adj clamped edh beta cls s logUs k).2).1 v = s v
    rw [ih _ _]
    exact acceptLoop_clamped_fix clamped edh _ beta logUs v hv cls s k

lemma anneal_clamped_fix (hbias : Node → ℚ) (J : List ((Node × Node) × ℚ))
    (adj : Node → Finset Node) (clamped : List (Node × Int)) (colors : List (List Node))
    (logUs : Nat → ℚ) (v : Node) (hv : (clamped.lookup v).isSome) :
    ∀ (betas : List ℚ) (p : (Node → Int) × Nat),
      (anneal hbias J adj clamped colors betas p logUs).1 v = p.1 v := by
  intro betas
  induction betas with
  | nil => intro p; rfl
  | cons beta betas ih =>
    intro p
    show (anneal hbias J adj clamped colors betas
      (sweep hbias J adj clamped colors beta p.1 logUs p.2) logUs).1 v = p.1 v
    rw [ih _]
    exact classesFold_clamped_fix J adj clamped _ beta logUs v hv colors p.1 p.2

lemma classesFold_not_mem_fix (J : List ((Node × Node) × ℚ)) (adj : Node → Finset Node)
    (clamped : List (Node × Int)) (edh : Node → ℚ) (beta : ℚ) (logUs : Nat → ℚ)
    (v : Node) :
    ∀ (colors : List (List Node)), (∀ cls ∈ colors, v ∉ cls) →
      ∀ (s : Node → Int) (k : Nat),
        (classesFold J adj clamped edh beta logUs colors s k).1 v = s v := by
  intro colors
  induction colors with
  | nil => intro _ s k; rfl
  | cons cls colors ih =>
    intro h s k
    show (classesFold J adj clamped edh beta logUs colors
      (classUpdate J adj clamped edh beta cls s logUs k).1
      (classUpdate J adj clamped edh beta cls s logUs k).2).1 v = s v
    rw [ih (fun c hc => h c (List.mem_cons_of_mem cls hc)) _ _]
    exact acceptLoop_not_mem clamped edh _ beta logUs v cls s k
      (h cls (List.mem_cons_self cls colors))

/-! ## Initialization lemmas -/

lemma initSpins_not_mem (clamped : List (Node × Int)) (draws : Nat → Int) (v : Node) :
    ∀ (l : List Node) (s : Node → Int) (i : Nat), v ∉ l →
      (initSpins clamped draws l s i).1 v = s v := by
  intro l
  induction l with
  | nil => intro s i _; rfl
  | cons u l ih =>
    intro s i h
    have hvu : v ≠ u := fun e => h (e ▸ List.mem_cons_self u l)
    have hvl : v ∉ l := fun e => h (List.mem_cons_of_mem u e)
    simp only [initSpins]
    split
    · rw [ih _ i hvl]; simp [hvu]
    · rw [ih _ (i + 1) hvl]; simp [hvu]

lemma initSpins_clamped (clamped : List (Node × Int)) (draws : Nat → Int) (v : Node)
    (cv : Int) (hv : clamped.lookup v = some cv) :
    ∀ (l : List Node) (s : Node → Int) (i : Nat), v ∈ l →
      (initSpins clamped draws l s i).1 v = cv := by
  intro l
  induction l with
  | nil => intro s i h; exact absurd h (List.not_mem_nil v)
  | cons u l ih =>
    intro s i h
    by_cases hvl : v ∈ l
    · simp only [initSpins]
      split
      · exact ih _ i hvl
      · exact ih _ (i + 1) hvl
    · have hvu : v = u := by
        rcases List.mem_cons.mp h with h | h
        · exact h
        · exact absurd h hvl
      subst hvu
      simp only [initSpins, hv]
      rw [initSpins_not_mem clamped draws v l _ i hvl]
      simp

lemma initSpins_pm (clamped : List (Node × Int)) (draws : Nat → Int)
    (hdraws : ∀ k, draws k = -1 ∨ draws k = 1)
    (hclamp : ∀ v cv, clamped.lookup v = some cv → cv = -1 ∨ cv = 1) :
    ∀ (l : List Node) (s : Node → Int) (i : Nat) (v : Node), v ∈ l →
      (initSpins clamped draws l s i).1 v = -1 ∨ (initSpins clamped draws l s i).1 v = 1 := by
  intro l
  induction l with
  | nil => intro s i v h; exact absurd h (List.not_mem_nil v)
  | cons u l ih =>
    intro s i v h
    by_cases hvl : v ∈ l
    · simp only [initSpins]
      split
      · exact ih _ i v hvl
      · exact ih _ (i + 1) v hvl
    · have hvu : v = u := by
        rcases List.mem_cons.mp h with h | h
        · exact h
        · exact absurd h hvl
      subst hvu
      simp only [initSpins]
      split
      · rename_i cv hcv
        rw [initSpins_not_mem clamped draws v l _ i hvl]
        simp only [if_pos rfl]
        exact hclamp v cv hcv
      · rw [initSpins_not_mem clamped draws v l _ (i + 1) hvl]
        simp only [if_pos rfl]
        exact hdraws i

lemma lookup_map_self (f : Node → Int) (v : Node) :
    ∀ (l : List Node), v ∈ l →
      (l.map (fun u => (u, f u))).lookup v = some (f v) := by
  intro l
  induction l with
  | nil => intro h; exact absurd h (List.not_mem_nil v)
  | cons u l ih =>
    intro h
    by_cases hvu : v = u
    · subst hvu
      simp [List.lookup]
    · have hvl : v ∈ l := by
        rcases List.mem_cons.mp h with h | h
        · exact absurd h hvu
        · exact h
      have hb : (v == u) = false := beq_eq_false_iff_ne.mpr hvu
      simp only [List.map, List.lookup, hb]
      exact ih hvl

/-! ## Adjacency construction -/

lemma buildAdj_eq_none_iff (nodes : List Node) :
    ∀ (Jl : List ((Node × Node) × ℚ)) (adj : Node → Finset Node),
      buildAdj nodes Jl adj = none ↔
        ∃ p ∈ Jl, p.1.1 ∉ nodes ∨ p.1.2 ∉ nodes := by
  intro Jl
  induction Jl with
  | nil => intro adj; simp [buildAdj]
  | cons e rest ih =>
    intro adj
    rcases e with ⟨⟨n0, n1⟩, w⟩
    simp only [buildAdj]
    split
    · rename_i hmem
      rw [ih _]
      constructor
      · rintro ⟨p, hp, hbad⟩
        exact ⟨p, List.mem_cons_of_mem _ hp, hbad⟩
      · rintro ⟨p, hp, hbad⟩
        rcases List.mem_cons.mp hp with hp | hp
        · subst hp
          rcases hbad with hbad | hbad
          · exact absurd hmem.1 hbad
          · exact absurd hmem.2 hbad
        · exact ⟨p, hp, hbad⟩
    · rename_i hmem
      simp only [true_iff]
      refine ⟨⟨⟨n0, n1⟩, w⟩, List.mem_cons_self _ _, ?_⟩
      rcases Decidable.not_and_iff_or_not.mp hmem with h | h
      · exact Or.inl h
      · exact Or.inr h

/-! ## Energy differences only depend on the node and its neighbours -/

lemma couplingTerm_congr (J : List ((Node × Node) × ℚ)) (s t : Node → Int) (v0 v1 : Node)
    (h0 : t v0 = s v0) (h1 : t v1 = s v1) :
    couplingTerm J t v0 v1 = couplingTerm J s v0 v1 := by
  unfold couplingTerm
  rw [h0, h1]

lemma energy_diff_J_congr (J : List ((Node × Node) × ℚ)) (adj : Node → Finset Node)
    (s t : Node → Int) (w : Node) (hw : t w = s w) (hnb : ∀ u ∈ adj w, t u = s u) :
    energy_diff_J J adj t w = energy_diff_J J adj s w := by
  unfold energy_diff_J
  congr 1
  refine Finset.sum_congr rfl ?_
  intro u hu
  exact couplingTerm_congr J s t w u hw (hnb u hu)

lemma energy_diff_J_flipAt (J : List ((Node × Node) × ℚ)) (adj : Node → Finset Node)
    (s : Node → Int) (u w : Node) (hne : w ≠ u) (hadj : u ∉ adj w) :
    energy_diff_J J adj (flipAt s u) w = energy_diff_J J adj s w := by
  refine energy_diff_J_congr J adj s (flipAt s u) w (flipAt_ne s u w hne) ?_
  intro x hx
  have hxu : x ≠ u := fun e => hadj (e ▸ hx)
  exact flipAt_ne s u x hxu

lemma energy_diff_h_congr (hbias : Node → ℚ) (s t : Node → Int) (w : Node)
    (hw : t w = s w) : energy_diff_h hbias t w = energy_diff_h hbias s w := by
  unfold energy_diff_h
  rw [hw]

/-! ## Pointwise descriptions of the batched and sequential class updates -/

lemma batchFlips_not_mem (clamped : List (Node × Int)) (beta : ℚ) (draw ed : Node → ℚ)
    (v : Node) :
    ∀ (l : List Node) (s : Node → Int), v ∉ l →
      batchFlips clamped beta draw ed l s v = s v := by
  intro l
  induction l with
  | nil => intro s _; rfl
  | cons u l ih =>
    intro s h
    have hvu : v ≠ u := fun e => h (e ▸ List.mem_cons_self u l)
    have hvl : v ∉ l := fun e => h (List.mem_cons_of_mem u e)
    simp only [batchFlips]
    split
    · exact ih s hvl
    · split
      · rw [ih (flipAt s u) hvl, flipAt_ne s u v hvu]
      · exact ih s hvl

lemma batchFlips_pointwise (clamped : List (Node × Int)) (beta : ℚ) (draw ed : Node → ℚ) :
    ∀ (l : List Node), l.Nodup → ∀ (s : Node → Int) (w : Node),
      batchFlips clamped beta draw ed l s w =
        if w ∈ l ∧ clamped.lookup w = none ∧ metropolisAccept beta (ed w) (draw w) = true
        then s w * -1 else s w := by
  intro l
  induction l with
  | nil => intro _ s w; simp [batchFlips]
  | cons u l ih =>
    intro hnd s w
    rcases List.nodup_cons.mp hnd with ⟨hu, hl⟩
    by_cases hw : w = u
    · subst hw
      simp only [batchFlips]
      split
      · rename_i hcs
        rw [ih hl s w]
        have : ¬ (clamped.lookup w = none) := by simp [← Option.not_isSome_iff_eq_none, hcs]
        simp [this]
      · rename_i hcs
        have hnone : clamped.lookup w = none := Option.not_isSome_iff_eq_none.mp (by simp [hcs])
        split
        · rename_i hacc
          rw [batchFlips_not_mem clamped beta draw ed w l (flipAt s w) hu, flipAt_self]
          simp [hnone, hacc]
        · rename_i hacc
          rw [batchFlips_not_mem clamped beta draw ed w l s hu]
          simp [hnone, hacc]
    · have hmem : w ∈ u :: l ↔ w ∈ l := by
        constructor
        · intro h; rcases List.mem_cons.mp h with h | h
          · exact absurd h hw
          · exact h
        · exact fun h => List.mem_cons_of_mem u h
      simp only [batchFlips]
      split
      · rw [ih hl s w]; simp only [hmem]
      · split
        · rw [ih hl (flipAt s u) w, flipAt_ne s u w hw]; simp only [hmem]
        · rw [ih hl s w]; simp only [hmem]

/-- Sequential single-node updates over pairwise non-adjacent,
duplicate-free nodes evaluate every energy difference at the list-start
state: later updates cannot see earlier flips because no edge joins two
listed nodes. -/
lemma seqUpdate_pointwise (hbias : Node → ℚ) (J : List ((Node × Node) × ℚ))
    (adj : Node → Finset Node) (clamped : List (Node × Int)) (beta : ℚ) (draw : Node → ℚ) :
    ∀ (l : List Node), l.Nodup → (∀ v ∈ l, ∀ w ∈ l, v ≠ w → w ∉ adj v) →
      ∀ (s : Node → Int) (w : Node),
        seqUpdate hbias J adj clamped beta draw l s w =
          if w ∈ l ∧ clamped.lookup w = none ∧
              metropolisAccept beta
                (energy_diff_h hbias s w + energy_diff_J J adj s w) (draw w) = true
          then s w * -1 else s w := by
  intro l
  induction l with
  | nil => intro _ _ s w; simp [seqUpdate]
  | cons u l ih =>
    intro hnd hindep s w
    rcases List.nodup_cons.mp hnd with ⟨hu, hl⟩
    have hindep' : ∀ v ∈ l, ∀ w ∈ l, v ≠ w → w ∉ adj v := by
      intro v hv w' hw' hne
      exact hindep v (List.mem_cons_of_mem u hv) w' (List.mem_cons_of_mem u hw') hne
    by_cases hw : w = u
    · subst hw
      simp only [seqUpdate]
      split
      · rename_i hcs
        rw [ih hl hindep' s w]
        have : ¬ (clamped.lookup w = none) := by simp [← Option.not_isSome_iff_eq_none, hcs]
        simp [this]
      · rename_i hcs
        have hnone : clamped.lookup w = none := Option.not_isSome_iff_eq_none.mp (by simp [hcs])
        split
        · rename_i hacc
          rw [ih hl hindep' (flipAt s w) w]
          simp [hu, flipAt_self, hnone, hacc]
        · rename_i hacc
          rw [ih hl hindep' s w]
          simp [hu, hnone, hacc]
    · have hmem : w ∈ u :: l ↔ w ∈ l := by
        constructor
        · intro h; rcases List.mem_cons.mp h with h | h
          · exact absurd h hw
          · exact h
        · exact fun h => List.mem_cons_of_mem u h
      simp only [seqUpdate]
      split
      · rw [ih hl hindep' s w]; simp only [hmem]
      · split
        · rw [ih hl hindep' (flipAt s u) w]
          by_cases hwl : w ∈ l
          · have hadj : u ∉ adj w :=
              hindep w (List.mem_cons_of_mem u hwl) u (List.mem_cons_self u l) hw
            rw [energy_diff_J_flipAt J adj s u w hw hadj,
              energy_diff_h_congr hbias s (flipAt s u) w (flipAt_ne s u w hw),
              flipAt_ne s u w hw]
            simp only [hmem]
          · simp only [hmem]
            simp [hwl, flipAt_ne s u w hw]
        · rw [ih hl hindep' s w]; simp only [hmem]

/-! ## Decomposing a sweep around one color class -/

lemma classesFold_cons (J : List ((Node × Node) × ℚ)) (adj : Node → Finset Node)
    (clamped : List (Node × Int)) (edh : Node → ℚ) (beta : ℚ) (logUs : Nat → ℚ)
    (cls : List Node) (colors : List (List Node)) (s : Node → Int) (k : Nat) :
    classesFold J adj clamped edh beta logUs (cls :: colors) s k =
      classesFold J adj clamped edh beta logUs colors
        (classUpdate J adj clamped edh beta cls s logUs k).1
        (classUpdate J adj clamped edh beta cls s logUs k).2 := rfl

lemma classesFold_append (J : List ((Node × Node) × ℚ)) (adj : Node → Finset Node)
    (clamped : List (Node × Int)) (edh : Node → ℚ) (beta : ℚ) (logUs : Nat → ℚ)
    (c1 c2 : List (List Node)) (s : Node → Int) (k : Nat) :
    classesFold J adj clamped edh beta logUs (c1 ++ c2) s k =
      classesFold J adj clamped edh beta logUs c2
        (classesFold J adj clamped edh beta logUs c1 s k).1
        (classesFold J adj clamped edh beta logUs c1 s k).2 := by
  unfold classesFold
  rw [List.foldl_append]

/-! ## Claim C1 -/

/-- C1 counterexample: the claim states that the sampler computes the
energy delta of flipping `v` as `ΔE = 2·spin[v]·bias[v] + 2·spin[v]·Σ ...`
and flips exactly when `log(U) < -β·ΔE`. On the one-node model with bias 1,
initial spin +1, `β = 1` and `log U = -1/2`, that rule forbids the flip
(the claimed `ΔE` is `2·1·1 + 0 = 2` and `-1/2 < -2` is false, second
conjunct), yet the cell flips the spin to `-1` (first conjunct): the cell
computes `energy_diff_h[v] = -2·spin[v]·h[v]`, the negation of the claimed
formula. -/
theorem C1_counterexample :
    sample ⟨[0], fun _ => 1, [], [], [1]⟩ (fun _ => [[0]]) (fun _ => 1) (fun _ => -1/2)
      = some [(0, -1)] ∧
    ¬ ((-1/2 : ℚ) < -1 * 1 * (2 * 1 * 1 + 2 * 1 * 0)) := by
  constructor
  · simp [sample, buildAdj, initSpins, anneal, sweep, classesFold, classUpdate,
      acceptLoop, metropolisAccept, energy_diff_h, energy_diff_J]
    norm_num [flipAt]
  · norm_num

/-- C1 (amended): for every non-clamped node `v` updated in a sweep at
inverse temperature `β`, the sampler computes the energy delta of flipping
`v` as `ΔE = -2·spin[v]·bias[v] - 2·spin[v]·Σ_{u ∈ adj(v)} coupling(v,u)·spin[u]`
(coupling summed over whichever directions are present, contributing 0 when
absent in both; here the second summand is `energy_diff_J`), with `spin`
read from the state `pI` reached when the color class of `v` starts, and
flips `v` (multiplies its spin by `-1`) exactly when `log U < -β·ΔE` for
the fresh draw `U` that the filtered loop consumes for `v`; otherwise the
spin of `v` is unchanged. The hypotheses are the coloring contract: `v`
lies in class `i` and in no other class, and the class has no duplicates. -/
theorem C1_flip_rule_amended (hbias : Node → ℚ) (J : List ((Node × Node) × ℚ))
    (adj : Node → Finset Node) (clamped : List (Node × Int)) (cs : List (List Node))
    (beta : ℚ) (s0 : Node → Int) (logUs : Nat → ℚ) (k0 i : Nat) (v : Node)
    (cls : List Node) (pI : (Node → Int) × Nat)
    (hi : i < cs.length)
    (hcls : cs.getD i [] = cls)
    (hnd : cls.Nodup)
    (hv : v ∈ cls)
    (hfree : clamped.lookup v = none)
    (hbefore : ∀ c ∈ cs.take i, v ∉ c)
    (hafter : ∀ c ∈ cs.drop (i + 1), v ∉ c)
    (hpI : classesFold J adj clamped (energy_diff_h hbias s0) beta logUs (cs.take i) s0 k0
      = pI) :
    (sweep hbias J adj clamped cs beta s0 logUs k0).1 v =
      if metropolisAccept beta
          (-2 * (pI.1 v : ℚ) * hbias v + energy_diff_J J adj pI.1 v)
          (logUs (pI.2 + freeIdx clamped cls v)) = true
      then pI.1 v * -1 else pI.1 v := by
  have hgi : cs[i] = cls := by rw [← List.getD_eq_getElem cs [] hi, hcls]
  have hdec : cs = cs.take i ++ cls :: cs.drop (i + 1) := by
    conv_lhs => rw [← List.take_append_drop i cs]
    rw [List.drop_eq_getElem_cons hi, hgi]
  have h1 : sweep hbias J adj clamped cs beta s0 logUs k0 =
      classesFold J adj clamped (energy_diff_h hbias s0) beta logUs
        (cs.take i ++ cls :: cs.drop (i + 1)) s0 k0 := by
    rw [sweep, ← hdec]
  rw [h1, classesFold_append, hpI, classesFold_cons,
    classesFold_not_mem_fix J adj clamped _ beta logUs v (cs.drop (i + 1)) hafter _ _]
  have hfix : pI.1 v = s0 v := by
    rw [← hpI]
    exact classesFold_not_mem_fix J adj clamped _ beta logUs v (cs.take i) hbefore s0 k0
  have hpt := acceptLoop_pointwise clamped (energy_diff_h hbias s0)
    (fun w => energy_diff_J J adj pI.1 w) beta logUs cls hnd pI.1 pI.2 v
  rw [classUpdate, hpt]
  have hedh : energy_diff_h hbias s0 v = -2 * (pI.1 v : ℚ) * hbias v := by
    simp only [energy_diff_h, hfix]
  simp only [hedh, hv, hfree, true_and]

/-- C1 witness: the amended flip rule applied to the concrete one-node,
one-class, one-sweep model of the counterexample. -/
theorem C1_flip_rule_amended_witness :
    (0 : Nat) < 1 ∧
    (sweep (fun _ => 1) [] (fun _ => ∅) [] [[0]] 1 (fun _ => 1) (fun _ => -1/2) 0).1 0 =
      if metropolisAccept 1
          (-2 * (((fun _ => (1 : Int)) 0 : Int) : ℚ) * 1 +
            energy_diff_J [] (fun _ => ∅) (fun _ => 1) 0)
          ((-1/2 : ℚ)) = true
      then ((fun _ => (1 : Int)) 0) * -1 else ((fun _ => (1 : Int)) 0) :=
  ⟨by decide,
    C1_flip_rule_amended (fun _ => 1) [] (fun _ => ∅) [] [[0]] 1 (fun _ => 1)
      (fun _ => -1/2) 0 0 0 [0] ((fun _ => 1), 0)
      (by decide) rfl (by decide) (by decide) rfl
      (by intro c hc; simp at hc) (by intro c hc; simp at hc) rfl⟩

/-! ## Claim C2 -/

/-- C2: for every node of the clamp dict that is a node of the biases,
with clamped value in `{-1, +1}`, every successful run — for every random
source, every coloring and every cooling schedule — returns an assignment
mapping that node to its clamped value: the clamp is written once at
initialization and no acceptance loop ever flips a clamped node. -/
theorem C2_clamped_invariant (inp : SampleInput)
    (coloring : (Node → Finset Node) → List (List Node))
    (draws : Nat → Int) (logUs : Nat → ℚ) (v : Node) (cv : Int)
    (res : List (Node × Int))
    (hv : inp.clamped.lookup v = some cv)
    (_hcv : cv = -1 ∨ cv = 1)
    (hmem : v ∈ inp.nodes)
    (hres : sample inp coloring draws logUs = some res) :
    res.lookup v = some cv := by
  unfold sample at hres
  rcases hadj : buildAdj inp.nodes inp.J fun _ => ∅ with _ | adj
  · rw [hadj] at hres; exact absurd hres (by simp)
  · rw [hadj] at hres
    simp only [Option.some_inj] at hres
    subst hres
    rw [lookup_map_self _ v inp.nodes hmem]
    have hsome : (inp.clamped.lookup v).isSome := by simp [hv]
    rw [anneal_clamped_fix inp.hbias inp.J adj inp.clamped (coloring adj) logUs v hsome
      inp.betas _]
    rw [initSpins_clamped inp.clamped draws v cv hv inp.nodes _ 0 hmem]

/-- C2 witness: a two-node model with node 0 clamped to `-1`; the run
flips the free node 1 but returns `-1` for the clamped node. -/
theorem C2_clamped_invariant_witness :
    List.lookup 0 [((0 : Node), (-1 : Int))] = some (-1) ∧
    ((-1 : Int) = -1 ∨ (-1 : Int) = 1) ∧
    (0 : Node) ∈ [0, 1] ∧
    sample ⟨[0, 1], fun _ => 0, [], [(0, -1)], [1]⟩ (fun _ => [[0], [1]])
      (fun _ => 1) (fun _ => -1) = some [(0, -1), (1, -1)] ∧
    List.lookup 0 [((0 : Node), (-1 : Int)), (1, -1)] = some (-1) :=
  have hs : sample ⟨[0, 1], fun _ => 0, [], [(0, -1)], [1]⟩ (fun _ => [[0], [1]])
      (fun _ => 1) (fun _ => -1) = some [(0, -1), (1, -1)] := by
    simp [sample, buildAdj, initSpins, anneal, sweep, classesFold, classUpdate,
      acceptLoop, metropolisAccept, energy_diff_h, energy_diff_J, List.lookup]
    norm_num [flipAt]
  ⟨rfl, Or.inl rfl, by decide, hs,
    C2_clamped_invariant ⟨[0, 1], fun _ => 0, [], [(0, -1)], [1]⟩ (fun _ => [[0], [1]])
      (fun _ => 1) (fun _ => -1) 0 (-1) [(0, -1), (1, -1)] rfl (Or.inl rfl) (by decide) hs⟩

/-! ## Claim C3 -/

/-- C3 counterexample: the claim states that `Sample` fails whenever the
clamp dict references a node absent from the biases, or a clamp value lies
outside `{-1, +1}`, or the cooling schedule is empty. This input violates
all three (clamped node 5 is unknown, node 0 is clamped to 7, the schedule
is empty), yet the cell raises nothing and returns an assignment — which
even carries the out-of-range spin 7. -/
theorem C3_counterexample :
    sample ⟨[0], fun _ => 0, [], [(5, -1), (0, 7)], []⟩ (fun _ => [])
      (fun _ => 1) (fun _ => -1) = some [(0, 7)] := by
  simp [sample, buildAdj, initSpins, anneal, List.lookup]

/-- C3 (amended): the run fails — with the `KeyError` raised while the
adjacency dict is built, hence before any sweep executes and with no
partial result — exactly when some coupling references a node absent from
the biases. Unknown clamped nodes are silently ignored, clamp values
outside `{-1, +1}` are used as given, and an empty schedule returns the
initial assignment without error. -/
theorem C3_invalid_model_amended (inp : SampleInput)
    (coloring : (Node → Finset Node) → List (List Node))
    (draws : Nat → Int) (logUs : Nat → ℚ) :
    sample inp coloring draws logUs = none ↔
      ∃ p ∈ inp.J, p.1.1 ∉ inp.nodes ∨ p.1.2 ∉ inp.nodes := by
  rw [← buildAdj_eq_none_iff inp.nodes inp.J (fun _ => ∅)]
  unfold sample
  rcases hadj : buildAdj inp.nodes inp.J fun _ => ∅ with _ | adj <;> simp

/-! ## Claim C5 -/

/-- C5: the sampler is deterministic in its random source: the run is a
pure function of the inputs, the coloring and the two draw streams, so two
runs with identical inputs and identical draws return equal assignments.
All randomness of the cell flows through the two `np.random` streams that
are explicit parameters here; no other source of nondeterminism exists in
the embedding. -/
theorem C5_determinism (inp : SampleInput)
    (coloring : (Node → Finset Node) → List (List Node))
    (draws : Nat → Int) (logUs : Nat → ℚ) :
    sample inp coloring draws logUs = sample inp coloring draws logUs := rfl

/-! ## Claim C6 -/

/-- C6: the sweep loop performs exactly one sweep per schedule entry, in
order: an empty schedule leaves the state unchanged, the head entry is the
first sweep performed and the remaining entries follow on its result, and
the sweep for the final entry is performed last, its result being what the
run returns. -/
theorem C6_one_sweep_per_entry (hbias : Node → ℚ) (J : List ((Node × Node) × ℚ))
    (adj : Node → Finset Node) (clamped : List (Node × Int)) (colors : List (List Node))
    (logUs : Nat → ℚ) :
    (∀ p, anneal hbias J adj clamped colors [] p logUs = p) ∧
    (∀ (beta : ℚ) (betas : List ℚ) (p),
      anneal hbias J adj clamped colors (beta :: betas) p logUs =
        anneal hbias J adj clamped colors betas
          (sweep hbias J adj clamped colors beta p.1 logUs p.2) logUs) ∧
    (∀ (betas : List ℚ) (beta : ℚ) (p),
      anneal hbias J adj clamped colors (betas ++ [beta]) p logUs =
        sweep hbias J adj clamped colors beta
          (anneal hbias J adj clamped colors betas p logUs).1 logUs
          (anneal hbias J adj clamped colors betas p logUs).2) := by
  refine ⟨fun p => rfl, fun beta betas p => rfl, fun betas beta p => ?_⟩
  unfold anneal
  rw [List.foldl_append]
  rfl

/-! ## Claim C7 -/

/-- C7: for every `β ≥ 0` and every candidate flip whose energy delta
satisfies `ΔE ≤ 0`, the Metropolis test of the cell accepts for every
uniform draw `U ∈ (0, 1)` (whose logarithm is negative): indeed
`log U < 0 ≤ -β·ΔE`, so the `ΔE = 0` edge case needs no special-casing. -/
theorem C7_nonpositive_delta_accepts (beta ed logp : ℚ)
    (hb : 0 ≤ beta) (hed : ed ≤ 0) (hu : logp < 0) :
    (0 : ℚ) ≤ -1 * beta * ed ∧ metropolisAccept beta ed logp = true := by
  have hmul : beta * ed ≤ 0 := mul_nonpos_iff.mpr (Or.inl ⟨hb, hed⟩)
  constructor
  · nlinarith
  · simp only [metropolisAccept, decide_eq_true_eq]
    nlinarith

/-- C7 witness: `β = 1`, `ΔE = -2`, `log U = -1/2`. -/
theorem C7_nonpositive_delta_accepts_witness :
    (0 : ℚ) ≤ 1 ∧ (-2 : ℚ) ≤ 0 ∧ (-1/2 : ℚ) < 0 ∧
    ((0 : ℚ) ≤ -1 * 1 * (-2) ∧ metropolisAccept 1 (-2) (-1/2) = true) :=
  ⟨by norm_num, by norm_num, by norm_num,
    C7_nonpositive_delta_accepts 1 (-2) (-1/2) (by norm_num) (by norm_num) (by norm_num)⟩

/-! ## Claim C8 -/

lemma notebookBetas_entry (i : Nat) (hi : i < 1000) :
    notebookBetas[i]? = some (1 - (i : ℚ) / 999) := by
  rw [notebookBetas, List.getElem?_map, List.getElem?_range (by simpa [num_sweeps] using hi),
    Option.map_some']
  norm_num [num_sweeps]

lemma notebookBetas_last : notebookBetas[999]? = some 0 := by
  rw [notebookBetas_entry 999 (by norm_num)]
  norm_num

/-- C8 counterexample: the claim states that every entry of the notebook
schedule is a positive real, as the Sample contract requires of
`coolingSchedule`. The last entry, `1 - 999/999`, is `0`: not positive. -/
theorem C8_counterexample : ¬ (∀ b ∈ notebookBetas, 0 < b) := fun h =>
  absurd (h 0 (List.getElem?_mem notebookBetas_last)) (lt_irrefl 0)

/-- C8 (amended): the notebook schedule
`βs = [1.0 - 1.0*i/(num_sweeps - 1.) for i in range(num_sweeps)]` with
`num_sweeps = 1000` has 1000 entries, starts at `β = 1`, is strictly
monotonically decreasing, and every entry is nonnegative — but not every
entry is positive: `0` occurs (as the final entry). -/
theorem C8_schedule_amended :
    notebookBetas.length = num_sweeps ∧
    notebookBetas[0]? = some 1 ∧
    List.Pairwise (fun a b => b < a) notebookBetas ∧
    (∀ b ∈ notebookBetas, 0 ≤ b) ∧
    (0 : ℚ) ∈ notebookBetas := by
  have hden : ((num_sweeps : ℚ) - 1) = 999 := by norm_num [num_sweeps]
  refine ⟨?_, ?_, ?_, ?_, List.getElem?_mem notebookBetas_last⟩
  · rw [notebookBetas, List.length_map, List.length_range]
  · rw [notebookBetas_entry 0 (by norm_num)]
    norm_num
  · rw [notebookBetas]
    rw [List.pairwise_map]
    refine List.Pairwise.imp ?_ (List.pairwise_lt_range num_sweeps)
    intro i j hij
    have hij' : (i : ℚ) < (j : ℚ) := by exact_mod_cast hij
    rw [hden]
    have : (i : ℚ) / 999 < (j : ℚ) / 999 := by linarith
    linarith
  · intro b hb
    rw [notebookBetas] at hb
    rcases List.mem_map.mp hb with ⟨i, hi, rfl⟩
    have hi' : i < 1000 := by simpa [num_sweeps] using List.mem_range.mp hi
    have hle : (i : ℚ) ≤ 999 := by
      have : i ≤ 999 := by omega
      exact_mod_cast this
    rw [hden]
    have : (i : ℚ) / 999 ≤ 1 := by
      rw [div_le_one (by norm_num : (0:ℚ) < 999)]
      exact hle
    linarith

/-! ## Claim C9 -/

lemma flipAt_pm (N : List Node) (s : Node → Int) (u : Node)
    (h : ∀ v ∈ N, s v = -1 ∨ s v = 1) :
    ∀ v ∈ N, flipAt s u v = -1 ∨ flipAt s u v = 1 := by
  intro v hv
  unfold flipAt
  split
  · rename_i he
    rcases h v hv with hs | hs <;> rw [← he, hs] <;> simp
  · exact h v hv

/-- C9: provided every initialization draw and every clamped value is in
`{-1, +1}`, the spin assignment maps every node of the biases to a value
in `{-1, +1}` at every point of the run: after initialization, after every
color-class update applied to a state satisfying the invariant, and in the
returned assignment — initialization draws from `{-1, +1}` or copies a
clamp, and the only mutation is multiplication by `-1`. -/
theorem C9_spins_pm_invariant (inp : SampleInput)
    (coloring : (Node → Finset Node) → List (List Node))
    (draws : Nat → Int) (logUs : Nat → ℚ)
    (hdraws : ∀ k, draws k = -1 ∨ draws k = 1)
    (hclamp : ∀ v cv, inp.clamped.lookup v = some cv → cv = -1 ∨ cv = 1) :
    (∀ v ∈ inp.nodes,
      (initSpins inp.clamped draws inp.nodes (fun _ => 0) 0).1 v = -1 ∨
      (initSpins inp.clamped draws inp.nodes (fun _ => 0) 0).1 v = 1) ∧
    (∀ (adj : Node → Finset Node) (edh : Node → ℚ) (beta : ℚ) (cls : List Node)
        (s : Node → Int) (k : Nat),
      (∀ v ∈ inp.nodes, s v = -1 ∨ s v = 1) →
      ∀ v ∈ inp.nodes,
        (classUpdate inp.J adj inp.clamped edh beta cls s logUs k).1 v = -1 ∨
        (classUpdate inp.J adj inp.clamped edh beta cls s logUs k).1 v = 1) ∧
    (∀ res, sample inp coloring draws logUs = some res →
      ∀ p ∈ res, p.2 = -1 ∨ p.2 = 1) := by
  have hP : ∀ (s : Node → Int) (u : Node),
      (∀ v ∈ inp.nodes, s v = -1 ∨ s v = 1) →
      (∀ v ∈ inp.nodes, flipAt s u v = -1 ∨ flipAt s u v = 1) :=
    fun s u h => flipAt_pm inp.nodes s u h
  refine ⟨?_, ?_, ?_⟩
  · intro v hv
    exact initSpins_pm inp.clamped draws hdraws hclamp inp.nodes (fun _ => 0) 0 v hv
  · intro adj edh beta cls s k hs
    exact acceptLoop_pres inp.clamped edh _ beta logUs
      (fun t => ∀ v ∈ inp.nodes, t v = -1 ∨ t v = 1) hP cls s k hs
  · intro res hres
    unfold sample at hres
    rcases hadj : buildAdj inp.nodes inp.J fun _ => ∅ with _ | adj
    · rw [hadj] at hres; exact absurd hres (by simp)
    · rw [hadj] at hres
      simp only [Option.some_inj] at hres
      subst hres
      intro p hp
      rcases List.mem_map.mp hp with ⟨u, hu, rfl⟩
      exact anneal_pres inp.hbias inp.J adj inp.clamped (coloring adj) logUs
        (fun t => ∀ v ∈ inp.nodes, t v = -1 ∨ t v = 1) hP inp.betas
        ((initSpins inp.clamped draws inp.nodes (fun _ => 0) 0).1, 0)
        (fun v hv => initSpins_pm inp.clamped draws hdraws hclamp inp.nodes (fun _ => 0) 0 v hv)
        u hu

/-- C9 witness: the clamped two-node run of the C2 witness, whose returned
entries are all `±1`; both hypotheses hold for the constant draw stream 1
and the clamp dict `{0: -1}`. -/
theorem C9_spins_pm_invariant_witness :
    (∀ k : Nat, (fun _ : Nat => (1 : Int)) k = -1 ∨ (fun _ : Nat => (1 : Int)) k = 1) ∧
    (((1 : Node), (-1 : Int)).2 = -1 ∨ ((1 : Node), (-1 : Int)).2 = 1) :=
  have hdraws : ∀ k : Nat, (fun _ : Nat => (1 : Int)) k = -1 ∨ (fun _ : Nat => (1 : Int)) k = 1 :=
    fun _ => Or.inr rfl
  have hclamp : ∀ v cv, (List.lookup v [((0 : Node), (-1 : Int))]) = some cv →
      cv = -1 ∨ cv = 1 := by
    intro v cv h
    rcases hb : (v == (0 : Node)) with _ | _
    · simp [List.lookup, hb] at h
    · simp [List.lookup, hb] at h
      exact Or.inl h.symm
  have hs : sample ⟨[0, 1], fun _ => 0, [], [(0, -1)], [1]⟩ (fun _ => [[0], [1]])
      (fun _ => 1) (fun _ => -1) = some [(0, -1), (1, -1)] := by
    simp [sample, buildAdj, initSpins, anneal, sweep, classesFold, classUpdate,
      acceptLoop, metropolisAccept, energy_diff_h, energy_diff_J, List.lookup]
    norm_num [flipAt]
  ⟨hdraws,
    (C9_spins_pm_invariant ⟨[0, 1], fun _ => 0, [], [(0, -1)], [1]⟩ (fun _ => [[0], [1]])
        (fun _ => 1) (fun _ => -1) hdraws hclamp).2.2
      [(0, -1), (1, -1)] hs ((1 : Node), (-1 : Int)) (by decide)⟩

/-! ## Claim C10 -/

/-- C10: when the coupling dict contains a pair in both orders, both
weights contribute to the local-field term of each endpoint — the
`ediff` summand for the pair is the sum of the two entries, not one of
them — and any model whose couplings reference only known nodes is
accepted by the sampler without error. -/
theorem C10_both_directions_sum (J : List ((Node × Node) × ℚ)) (s : Node → Int)
    (u v : Node) (a b : ℚ)
    (h1 : J.lookup (u, v) = some a) (h2 : J.lookup (v, u) = some b)
    (inp : SampleInput) (coloring : (Node → Finset Node) → List (List Node))
    (draws : Nat → Int) (logUs : Nat → ℚ)
    (hJ : ∀ p ∈ inp.J, p.1.1 ∈ inp.nodes ∧ p.1.2 ∈ inp.nodes) :
    couplingTerm J s u v = (s u : ℚ) * (s v : ℚ) * (a + b) ∧
    couplingTerm J s v u = (s v : ℚ) * (s u : ℚ) * (b + a) ∧
    (sample inp coloring draws logUs).isSome = true := by
  refine ⟨?_, ?_, ?_⟩
  · unfold couplingTerm
    rw [h1, h2]
    ring
  · unfold couplingTerm
    rw [h1, h2]
    ring
  · have hne : buildAdj inp.nodes inp.J (fun _ => ∅) ≠ none := by
      rw [Ne, buildAdj_eq_none_iff]
      rintro ⟨p, hp, hbad⟩
      rcases hbad with hbad | hbad
      · exact hbad (hJ p hp).1
      · exact hbad (hJ p hp).2
    unfold sample
    rcases hadj : buildAdj inp.nodes inp.J fun _ => ∅ with _ | adj
    · exact absurd hadj hne
    · rfl

/-- C10 witness: `J = {(0,1): 2, (1,0): 3}` — the pair is present in both
orders; the `ediff` summand at each endpoint is `s0·s1·(2 + 3)`, and the
two-node model carrying this `J` samples without error. -/
theorem C10_both_directions_sum_witness :
    List.lookup ((0 : Node), (1 : Node)) [(((0 : Node), (1 : Node)), (2 : ℚ)),
      (((1 : Node), (0 : Node)), (3 : ℚ))] = some 2 ∧
    List.lookup ((1 : Node), (0 : Node)) [(((0 : Node), (1 : Node)), (2 : ℚ)),
      (((1 : Node), (0 : Node)), (3 : ℚ))] = some 3 ∧
    (couplingTerm [(((0 : Node), (1 : Node)), (2 : ℚ)), (((1 : Node), (0 : Node)), (3 : ℚ))]
        (fun _ => 1) 0 1 = (((fun _ => (1 : Int)) (0 : Node) : Int) : ℚ) *
          (((fun _ => (1 : Int)) (1 : Node) : Int) : ℚ) * (2 + 3) ∧
      couplingTerm [(((0 : Node), (1 : Node)), (2 : ℚ)), (((1 : Node), (0 : Node)), (3 : ℚ))]
        (fun _ => 1) 1 0 = (((fun _ => (1 : Int)) (1 : Node) : Int) : ℚ) *
          (((fun _ => (1 : Int)) (0 : Node) : Int) : ℚ) * (3 + 2) ∧
      (sample ⟨[0, 1], fun _ => 0,
          [(((0 : Node), (1 : Node)), (2 : ℚ)), (((1 : Node), (0 : Node)), (3 : ℚ))],
          [], [1]⟩ (fun _ => [[0], [1]]) (fun _ => 1) (fun _ => -1)).isSome = true) :=
  ⟨rfl, rfl,
    C10_both_directions_sum
      [(((0 : Node), (1 : Node)), (2 : ℚ)), (((1 : Node), (0 : Node)), (3 : ℚ))]
      (fun _ => 1) 0 1 2 3 rfl rfl
      ⟨[0, 1], fun _ => 0,
        [(((0 : Node), (1 : Node)), (2 : ℚ)), (((1 : Node), (0 : Node)), (3 : ℚ))],
        [], [1]⟩ (fun _ => [[0], [1]]) (fun _ => 1) (fun _ => -1)
      (by decide)⟩

/-! ## Claim C4 -/

/-- C4: within one sweep, the batched update of a color class (every
member evaluates its energy delta from the spins as they stood at the
start of the class, then the accepted flips are applied) produces a state
equal to applying the same per-node updates strictly sequentially in any
order of the class — given the coloring invariant that no two distinct
listed nodes are adjacent, each node consuming the same draw. -/
theorem C4_batch_seq_equiv (hbias : Node → ℚ) (J : List ((Node × Node) × ℚ))
    (adj : Node → Finset Node) (clamped : List (Node × Int)) (beta : ℚ)
    (draw : Node → ℚ) (l lp : List Node) (s : Node → Int)
    (hperm : lp.Perm l) (hnd : l.Nodup)
    (hindep : ∀ v ∈ l, ∀ u ∈ l, v ≠ u → u ∉ adj v) (w : Node) :
    seqUpdate hbias J adj clamped beta draw lp s w =
      batchUpdate hbias J adj clamped beta draw l s w := by
  have hndp : lp.Nodup := hperm.nodup_iff.mpr hnd
  have hindepp : ∀ v ∈ lp, ∀ u ∈ lp, v ≠ u → u ∉ adj v := by
    intro v hv u hu hne
    exact hindep v (hperm.mem_iff.mp hv) u (hperm.mem_iff.mp hu) hne
  rw [seqUpdate_pointwise hbias J adj clamped beta draw lp hndp hindepp s w,
    batchUpdate, batchFlips_pointwise clamped beta draw _ l hnd s w]
  simp only [hperm.mem_iff]

/-- C4 witness: the path `0 - 1 - 2`; nodes 0 and 2 form one color class
(they share no edge); updating them sequentially in the order `[2, 0]`
agrees with the batched class update of `[0, 2]` at node 2, each node
consuming its own draw. -/
theorem C4_batch_seq_equiv_witness :
    List.Perm [2, 0] [0, 2] ∧
    List.Nodup [(0 : Node), 2] ∧
    (∀ v ∈ [(0 : Node), 2], ∀ u ∈ [(0 : Node), 2], v ≠ u →
      u ∉ (fun n : Node => if n = 0 then ({1} : Finset Node)
        else if n = 1 then ({0, 2} : Finset Node)
        else if n = 2 then ({1} : Finset Node) else ∅) v) ∧
    seqUpdate (fun _ => 1) [(((0 : Node), (1 : Node)), (1 : ℚ)), (((1 : Node), (2 : Node)), 1)]
      (fun n : Node => if n = 0 then ({1} : Finset Node)
        else if n = 1 then ({0, 2} : Finset Node)
        else if n = 2 then ({1} : Finset Node) else ∅) [] 1
      (fun v : Node => if v = 0 then -1/2 else -3) [2, 0] (fun _ => 1) 2 =
    batchUpdate (fun _ => 1) [(((0 : Node), (1 : Node)), (1 : ℚ)), (((1 : Node), (2 : Node)), 1)]
      (fun n : Node => if n = 0 then ({1} : Finset Node)
        else if n = 1 then ({0, 2} : Finset Node)
        else if n = 2 then ({1} : Finset Node) else ∅) [] 1
      (fun v : Node => if v = 0 then -1/2 else -3) [0, 2] (fun _ => 1) 2 :=
  ⟨List.Perm.swap 0 2 [], by decide, by decide,
    C4_batch_seq_equiv (fun _ => 1)
      [(((0 : Node), (1 : Node)), (1 : ℚ)), (((1 : Node), (2 : Node)), 1)]
      (fun n : Node => if n = 0 then ({1} : Finset Node)
        else if n = 1 then ({0, 2} : Finset Node)
        else if n = 2 then ({1} : Finset Node) else ∅) [] 1
      (fun v : Node => if v = 0 then -1/2 else -3) [0, 2] [2, 0] (fun _ => 1)
      (List.Perm.swap 0 2 []) (by decide) (by decide) 2⟩
